import Mathlib

/-!
# Verification of the pepalyzer core against its specification

Shallow embedding of the pepalyzer repository's core modules:

* `pepalyzer/pep_parser.py`   — PEP-number extraction from file paths
* `pepalyzer/pep_metadata.py` — RFC-822-style header/body parsing
* `pepalyzer/signals.py`      — regex-based editorial signal detection
* `pepalyzer/aggregator.py`   — per-PEP aggregation of commit records

Python strings are modelled as Lean `String` / `List Char`; Python `None`
becomes `Option.none`; Python dicts keyed by ints or strings become Lean
functions into `Option`/default values, with explicit key-insertion lists
where iteration order matters.  Regex character classes are modelled at
ASCII precision (the precision at which the repository uses them).
File-system reads (`read_pep_file`) are modelled as an explicit capability
`String → Option String`, following the spec's `fetchFileContent`
interface: the function returns `none` on any read failure.
-/

namespace Pepalyzer

/-- ASCII/latin-1 whitespace, as recognised by Python's `str.isspace` /
regex `\s` on the characters this repository manipulates. -/
def pyIsSpace (c : Char) : Bool :=
  c = ' ' || c = '\t' || c = '\n' || c = '\r' || c = '\x0b' || c = '\x0c'

/-- Regex `\w` (word character) at ASCII precision. -/
def isWordChar (c : Char) : Bool :=
  c.isAlpha || c.isDigit || c = '_'

/-- ASCII uppercase letter, regex class `[A-Z]`. -/
def isUpperAZ (c : Char) : Bool :=
  'A' ≤ c && c ≤ 'Z'

/-- Python `str.strip()` on a character list. -/
def strip (cs : List Char) : List Char :=
  ((cs.dropWhile pyIsSpace).reverse.dropWhile pyIsSpace).reverse

/-- Python `str.split(sep)` for a single-character separator
(`"a/b".split("/") == ["a", "b"]`, `"".split("/") == [""]`). -/
def splitOnChar (sep : Char) : List Char → List (List Char)
  | [] => [[]]
  | c :: cs =>
    if c = sep then [] :: splitOnChar sep cs
    else
      match splitOnChar sep cs with
      | [] => [[c]]
      | g :: gs => (c :: g) :: gs

/-- Case-insensitive equality of character lists (ASCII case folding,
matching the repository's use of `re.IGNORECASE` / `str.lower` on
ASCII data). -/
def ciEq (a b : List Char) : Bool :=
  a.map Char.toLower = b.map Char.toLower

/-! ## pep_parser.py — `extract_pep_number` -/

/-- A path-separator character: the code calls
`file_path.replace("\\", "/")` and then splits on `"/"`, so both
`/` and `\` separate directories. -/
def isSep (c : Char) : Bool :=
  c = '/' || c = '\\'

/-- Python `file_path.replace("\\", "/")`. -/
def replaceSep (cs : List Char) : List Char :=
  cs.map fun c => if c = '\\' then '/' else c

/-- Decimal value of a digit run, as computed by Python `int`. -/
def digitsToNat (ds : List Char) : Nat :=
  ds.foldl (fun a c => 10 * a + (c.toNat - '0'.toNat)) 0

/-- The regex `^pep-(\d+)` applied with `re.IGNORECASE` to a filename:
the first four characters case-fold to `pep-`, and the captured group is
the maximal run of decimal digits that follows, which is required to be
non-empty.  Returns `int(group(1))` on a match. -/
def parsePepFilename (fn : List Char) : Option Nat :=
  match fn with
  | c₁ :: c₂ :: c₃ :: c₄ :: rest =>
    if c₁.toLower = 'p' ∧ c₂.toLower = 'e' ∧ c₃.toLower = 'p' ∧ c₄.toLower = '-' then
      let ds := rest.takeWhile Char.isDigit
      if ds.isEmpty then none else some (digitsToNat ds)
    else none
  | _ => none

/-- Source `pep_parser.extract_pep_number`: reject empty input, take the last
`/`-separated component of `file_path.replace("\\", "/")`, and match it
against `^pep-(\d+)` case-insensitively. -/
def extract_pep_number (file_path : String) : Option Nat :=
  if file_path.toList = [] then none
  else parsePepFilename ((splitOnChar '/' (replaceSep file_path.toList)).getLastD [])

/-- Specification-side identifier extractor, written from the spec's §4.3
wording: "trim any directory prefix (accepting both `/` and `\` as
separators) to get the filename", independent of the code's
replace-then-split mechanism. -/
def afterLastSep : List Char → List Char
  | [] => []
  | c :: cs =>
    if cs.any isSep then afterLastSep cs
    else if isSep c then cs else c :: cs

/-- Spec-side recursion for "one or more decimal digits": the longest
leading digit run. -/
def leadingDigits : List Char → List Char
  | [] => []
  | c :: cs => if c.isDigit then c :: leadingDigits cs else []

/-- Modelled from the spec §4.3 wording: the filename (directory prefix
trimmed, both separators accepted) must start with the case-insensitive
literal followed by one or more decimal digits; trailing characters are
ignored; the result is the integer value of the digit run; absence is the
only failure mode. -/
def pepNumberSpec (fp : String) : Option Nat :=
  let fn := afterLastSep fp.toList
  let ds := leadingDigits (fn.drop 4)
  if ciEq (fn.take 4) ['p', 'e', 'p', '-'] ∧ ds ≠ [] then some (digitsToNat ds)
  else none

/-! ## pep_metadata.py — header/body parsing -/

/-- Source `pep_metadata.PepMetadata`: all fields optional, `authors` defaulting
to the empty list, exactly as in the frozen dataclass. -/
structure PepMetadata where
  title : Option String := none
  status : Option String := none
  abstract : Option String := none
  authors : List String := []
  pep_type : Option String := none
  created : Option String := none
deriving DecidableEq, Repr

/-- Lowercase a whole character list, Python `str.lower` at ASCII
precision. -/
def lowerChars (cs : List Char) : List Char :=
  cs.map Char.toLower

/-- Store one finished header: Python
headers[current_key] = " ".join(current_value).strip().
The headers dict is modelled as a lookup function; assignment overwrites. -/
def saveHeader (hs : String → Option String) :
    Option (String × List (List Char)) → (String → Option String)
  | none => hs
  | some (k, vs) =>
    fun q => if q = k then some (String.mk (strip (List.intercalate [' '] vs))) else hs q

/-- The header-phase loop of `_parse_headers`: blank line saves and
terminates; a line containing a colon whose first character is not
whitespace starts a new header, saving the previous one; a line starting
with whitespace while a header is open is a continuation; anything else
is silently skipped; end of input saves the open header. -/
def parseHeadersAux (hs : String → Option String)
    (cur : Option (String × List (List Char))) :
    List (List Char) → (String → Option String)
  | [] => saveHeader hs cur
  | line :: rest =>
    if strip line = [] then saveHeader hs cur
    else if line.any (fun c => c = ':') ∧ ¬pyIsSpace (line.headD ' ') then
      let key := line.takeWhile (fun c => c ≠ ':')
      let value := (line.dropWhile (fun c => c ≠ ':')).drop 1
      parseHeadersAux (saveHeader hs cur)
        (some (String.mk (lowerChars (strip key)), [strip value])) rest
    else if pyIsSpace (line.headD ' ') ∧ cur.isSome then
      match cur with
      | some (k, vs) => parseHeadersAux hs (some (k, vs ++ [strip line])) rest
      | none => parseHeadersAux hs cur rest
    else parseHeadersAux hs cur rest

/-- Source `pep_metadata._parse_headers`. -/
def parse_headers (lines : List (List Char)) : String → Option String :=
  parseHeadersAux (fun _ => none) none lines

/-- Source `pep_metadata._skip_to_body`: body lines start after the first blank
line; no blank line means no body. -/
def skip_to_body : List (List Char) → List (List Char)
  | [] => []
  | l :: ls => if strip l = [] then ls else skip_to_body ls

/-- The regex `^(Abstract|##\s*Abstract)\s*$` with `re.IGNORECASE`,
applied to an already-stripped line. -/
def isAbstractMarker (cs : List Char) : Bool :=
  ciEq cs ['a', 'b', 's', 't', 'r', 'a', 'c', 't'] ||
    (List.isPrefixOf ['#', '#'] cs &&
      ciEq ((cs.drop 2).dropWhile pyIsSpace) ['a', 'b', 's', 't', 'r', 'a', 'c', 't'])

/-- The regex `^[=\-]+\s*$` applied to an already-stripped line: a
non-empty run of `=` / `-` characters. -/
def isUnderline (cs : List Char) : Bool :=
  !cs.isEmpty && cs.all fun c => c = '=' || c = '-'

/-- The prefix-matching part of the section-heading heuristic regex
`[A-Z][\w\s]+`: an ASCII uppercase letter followed by at least one word
character or whitespace character. -/
def startsUpperWord : List Char → Bool
  | c₁ :: c₂ :: _ => isUpperAZ c₁ && (isWordChar c₂ || pyIsSpace c₂)
  | _ => false

/-- The heading-heuristic regex `^(#{1,6}\s+|[A-Z][\w\s]+)` as a prefix
match on an already-stripped line. -/
def headingMatch (cs : List Char) : Bool :=
  (let n := (cs.takeWhile fun c => c = '#').length
   decide (1 ≤ n) && decide (n ≤ 6) && pyIsSpace ((cs.drop n).headD 'a')) ||
    startsUpperWord cs

/-- Source `pep_metadata._is_paragraph_end`. -/
def is_paragraph_end (line : List Char) (collected : List (List Char)) : Bool :=
  if strip line = [] then true
  else if collected ≠ [] ∧ headingMatch (strip line) then true
  else false

/-- Python `line.strip().startswith(".. ")` — a markup-directive line. -/
def isDirectiveLine (cs : List Char) : Bool :=
  List.isPrefixOf ['.', '.', ' '] cs

/-- The loop of `pep_metadata._collect_abstract_lines`, with the
accumulated lines and the in-abstract-section flag as explicit state. -/
def collectAbstractAux (acc : List (List Char)) (inAbs : Bool) :
    List (List Char) → List (List Char)
  | [] => acc
  | line :: rest =>
    if acc = [] ∧ strip line = [] then collectAbstractAux acc inAbs rest
    else if isAbstractMarker (strip line) then collectAbstractAux acc true rest
    else if isUnderline (strip line) then collectAbstractAux acc inAbs rest
    else if inAbs = true ∨ (acc = [] ∧ ¬isDirectiveLine (strip line)) then
      if is_paragraph_end line acc then acc
      else collectAbstractAux (acc ++ [strip line]) inAbs rest
    else collectAbstractAux acc inAbs rest

/-- Source `pep_metadata._collect_abstract_lines`. -/
def collect_abstract_lines (lines : List (List Char)) : List (List Char) :=
  collectAbstractAux [] false lines

/-- Source `pep_metadata._extract_abstract`: collected lines joined with
newlines, or absent when nothing was collected.  (The source also
receives the parsed headers but never reads them.) -/
def extract_abstract (lines : List (List Char)) : Option String :=
  let collected := collect_abstract_lines (skip_to_body lines)
  if collected = [] then none
  else some (String.mk (List.intercalate ['\n'] collected))

/-- Source `pep_metadata.extract_pep_metadata`: emptiness guard, header phase,
abstract phase, author splitting on commas with empty fragments
dropped. -/
def extract_pep_metadata (content : String) : PepMetadata :=
  if strip content.toList = [] then {}
  else
    let lines := splitOnChar '\n' content.toList
    let headers := parse_headers lines
    let abstract := extract_abstract lines
    let authors :=
      match headers "author" with
      | some a =>
        (((splitOnChar ',' a.toList).map strip).filter fun f => f ≠ []).map String.mk
      | none => []
    { title := headers "title"
      status := headers "status"
      abstract := abstract
      authors := authors
      pep_type := headers "type"
      created := headers "created" }

/-! ## signals.py — `detect_signals` -/

/-- Source `models.PepSignal`. -/
structure PepSignal where
  pep_number : Nat
  signal_type : String
  description : String
  signal_value : Nat := 0
deriving DecidableEq, Repr

/-- Case-insensitive prefix match of a (lowercase) pattern, the
`re.IGNORECASE` folding model. -/
def ciStartsWith : List Char → List Char → Bool
  | [], _ => true
  | _ :: _, [] => false
  | p :: ps, c :: cs => (c.toLower = p) && ciStartsWith ps cs

/-- Match of the regex `status:\s*WORD` (case-insensitive) anchored at
the head of `cs`: the literal `status:`, any run of whitespace, then
the given word.  The words used all start with a letter, so the greedy
whitespace skip is exactly the regex semantics. -/
def matchStatusAt (word : List Char) (cs : List Char) : Bool :=
  ciStartsWith ['s', 't', 'a', 't', 'u', 's', ':'] cs &&
    ciStartsWith word ((cs.drop 7).dropWhile pyIsSpace)

/-- Python `re.search`: try an anchored matcher at every position. -/
def searchAt (m : List Char → Bool) : List Char → Bool
  | [] => m []
  | c :: cs => m (c :: cs) || searchAt m cs

/-- Anchored match of `word` followed by a right word boundary `\b`:
the characters of `word` (compared by `eqc`), with the next character,
if any, not a word character. -/
def matchWordAt (eqc : Char → Char → Bool) : List Char → List Char → Bool
  | [], [] => true
  | [], c :: _ => !isWordChar c
  | _ :: _, [] => false
  | p :: ps, c :: cs => eqc p c && matchWordAt eqc ps cs

/-- Search for `\bword\b`, walking the text while remembering the
previous character to decide the left word boundary.  All the keywords
searched for start and end with word characters, so `\b` holds exactly
when the adjacent character is absent or not a word character. -/
def searchWordAux (eqc : Char → Char → Bool) (w : List Char) :
    Option Char → List Char → Bool
  | prev, [] =>
    (match prev with | none => true | some c => !isWordChar c) && matchWordAt eqc w []
  | prev, c :: cs =>
    ((match prev with | none => true | some c' => !isWordChar c') &&
      matchWordAt eqc w (c :: cs)) ||
      searchWordAux eqc w (some c) cs

/-- Python `re.search` of `\bword\b` over the whole text. -/
def searchWord (eqc : Char → Char → Bool) (w : List Char) (cs : List Char) : Bool :=
  searchWordAux eqc w none cs

/-- Case-insensitive character comparison for the deprecation patterns. -/
def charEqCI (p c : Char) : Bool :=
  c.toLower = p.toLower

/-- Case-sensitive character comparison for the RFC-2119 patterns. -/
def charEqCS (p c : Char) : Bool :=
  p = c

/-- The three deprecation patterns, searched case-insensitively as whole
words; the loop breaks at the first match. -/
def anyDeprecationKeyword (cs : List Char) : Bool :=
  searchWord charEqCI "deprecated".toList cs ||
    searchWord charEqCI "removed".toList cs ||
    searchWord charEqCI "no longer".toList cs

/-- The seven RFC-2119 keyword patterns, in source order. -/
def normativeKeywords : List String :=
  ["MUST", "MUST NOT", "SHOULD", "SHOULD NOT", "REQUIRED", "SHALL", "SHALL NOT"]

/-- Case-sensitive whole-word search for any RFC-2119 keyword; the
source loop breaks at the first matching pattern and every pattern
appends the identical signal, so first-match-wins is `List.any`. -/
def anyNormativeKeyword (cs : List Char) : Bool :=
  normativeKeywords.any fun w => searchWord charEqCS w.toList cs

/-- The normative-language signal the detector emits. -/
def normativeSignal (pep_number : Nat) : PepSignal :=
  { pep_number := pep_number, signal_type := "normative_language",
    description := "Contains normative language (RFC 2119 keywords)", signal_value := 50 }

/-- Source `signals.detect_signals`: the three status-presence rules (each
appending a signal of value 100 when its regex matches), the deprecation
rule (at most one signal of value 50), and the normative-language rule
(at most one signal of value 50), concatenated in source order. -/
def detect_signals (content : String) (pep_number : Nat) : List PepSignal :=
  (if searchAt (matchStatusAt "accepted".toList) content.toList then
    [{ pep_number := pep_number, signal_type := "status_accepted",
       description := "Status: Accepted", signal_value := 100 }]
  else []) ++
  (if searchAt (matchStatusAt "final".toList) content.toList then
    [{ pep_number := pep_number, signal_type := "status_final",
       description := "Status: Final", signal_value := 100 }]
  else []) ++
  (if searchAt (matchStatusAt "withdrawn".toList) content.toList then
    [{ pep_number := pep_number, signal_type := "status_withdrawn",
       description := "Status: Withdrawn", signal_value := 100 }]
  else []) ++
  (if anyDeprecationKeyword content.toList then
    [{ pep_number := pep_number, signal_type := "deprecation",
       description := "Contains deprecation or removal language", signal_value := 50 }]
  else []) ++
  (if anyNormativeKeyword content.toList then [normativeSignal pep_number] else [])

/-! ## aggregator.py — `aggregate_by_pep` -/

/-- Source `models.ChangedFile`. -/
structure ChangedFile where
  path : String
  change_type : String
deriving DecidableEq, Repr

/-- Source `models.CommitRecord`; the timestamp is opaque to the aggregator and
is modelled as a natural number. -/
structure CommitRecord where
  hash : String
  timestamp : Nat
  message : String
  files : List ChangedFile
deriving DecidableEq, Repr

/-- Source `models.PepActivity`. -/
structure PepActivity where
  pep_number : Nat
  commit_count : Nat
  files : List String
  title : Option String := none
  status : Option String := none
  abstract : Option String := none
  authors : List String := []
  pep_type : Option String := none
  created : Option String := none
  commit_messages : List String := []
deriving DecidableEq, Repr

/-- Python `str.endswith` on the character-list model. -/
def pyEndsWith (s ext : String) : Bool :=
  List.isPrefixOf ext.toList.reverse s.toList.reverse

/-- One priority tier of `aggregator._extract_metadata_for_pep`: walk the
files in order, and for the first file with the given suffix whose read
yields non-empty content, parse that content.  `read` is the
file-reading capability (`read_pep_file` with the repository path
applied), returning `none` on any read failure. -/
def tryFilesWith (read : String → Option String) (ext : String) :
    List String → Option PepMetadata
  | [] => none
  | f :: fs =>
    if pyEndsWith f ext then
      match read f with
      | some content =>
        if content = "" then tryFilesWith read ext fs
        else some (extract_pep_metadata content)
      | none => tryFilesWith read ext fs
    else tryFilesWith read ext fs

/-- Source `aggregator._extract_metadata_for_pep`: priority .rst, then .md,
then .txt; `none` when no candidate yields content. -/
def extract_metadata_for_pep (read : String → Option String)
    (files : List String) : Option PepMetadata :=
  match tryFilesWith read ".rst" files with
  | some m => some m
  | none =>
    match tryFilesWith read ".md" files with
    | some m => some m
    | none => tryFilesWith read ".txt" files

/-- The three defaultdicts of `aggregate_by_pep`, modelled as total
functions with the dicts' default values, plus the key-insertion order of
pep_commits (which drives the output loop). -/
structure AggState where
  pep_commits : Nat → Nat
  pep_files : Nat → List String
  pep_messages : Nat → List String
  pep_keys : List Nat

/-- The empty defaultdicts. -/
def initialState : AggState :=
  { pep_commits := fun _ => 0, pep_files := fun _ => [],
    pep_messages := fun _ => [], pep_keys := [] }

/-- Python set.add on the per-PEP file set (sets are modelled as
duplicate-free lists; membership is what the final sorted() observes). -/
def addPath (l : List String) (path : String) : List String :=
  if path ∈ l then l else l ++ [path]

/-- First pass over a commit's files: record each file under its PEP
number (files with no PEP number are dropped). -/
def fileStep (s : AggState) (f : ChangedFile) : AggState :=
  match extract_pep_number f.path with
  | some p =>
    { s with pep_files := fun n => if n = p then addPath (s.pep_files p) f.path else s.pep_files n }
  | none => s

/-- The set of distinct PEP numbers a commit touches
(`pep_numbers_in_commit`). -/
def touchedPeps (c : CommitRecord) : List Nat :=
  (c.files.filterMap fun f => extract_pep_number f.path).dedup

/-- Second pass for one touched PEP: count the commit once, append its
message once, and record the key on first touch. -/
def touchStep (msg : String) (s : AggState) (p : Nat) : AggState :=
  { s with
    pep_commits := fun n => if n = p then s.pep_commits n + 1 else s.pep_commits n,
    pep_messages := fun n => if n = p then s.pep_messages n ++ [msg] else s.pep_messages n,
    pep_keys := if p ∈ s.pep_keys then s.pep_keys else s.pep_keys ++ [p] }

/-- Process one commit: first pass over its files, then the per-PEP
updates for each distinct PEP it touches. -/
def processCommit (st : AggState) (c : CommitRecord) : AggState :=
  (touchedPeps c).foldl (touchStep c.message) (c.files.foldl fileStep st)

/-- Predicate "commit c touches PEP p": some changed file of c maps to p. -/
def commitTouches (p : Nat) (c : CommitRecord) : Bool :=
  c.files.any fun f => extract_pep_number f.path == some p

/-- Lexicographic (code-point) order on character lists: Python's
string comparison, as used by `sorted()` on file paths. -/
def charListLe : List Char → List Char → Bool
  | [], _ => true
  | _ :: _, [] => false
  | a :: as, b :: bs => if a = b then charListLe as bs else decide (a < b)

/-- Strict lexicographic (code-point) order on character lists. -/
def charListLt : List Char → List Char → Bool
  | [], [] => false
  | [], _ :: _ => true
  | _ :: _, [] => false
  | a :: as, b :: bs => if a = b then charListLt as bs else decide (a < b)

/-- Python string comparison on paths. -/
def pathLe (a b : String) : Prop :=
  charListLe a.toList b.toList = true

/-- Strict Python string comparison on paths. -/
def pathLt (a b : String) : Prop :=
  charListLt a.toList b.toList = true

instance : DecidableRel pathLe := fun a b => instDecidableEqBool (charListLe a.toList b.toList) true

instance : DecidableRel pathLt := fun a b => instDecidableEqBool (charListLt a.toList b.toList) true

/-- The sort key of `activities.sort(key=lambda a: a.pep_number)`. -/
def activityLE (a b : PepActivity) : Prop :=
  a.pep_number ≤ b.pep_number

instance : DecidableRel activityLE := fun a b => Nat.decLe a.pep_number b.pep_number

instance : IsTotal PepActivity activityLE := ⟨fun a b => Nat.le_total a.pep_number b.pep_number⟩

instance : IsTrans PepActivity activityLE := ⟨fun _ _ _ => Nat.le_trans⟩

/-- Build the PepActivity record for one PEP number from the final
state, with metadata extraction when a reading capability is present. -/
def buildActivity (st : AggState) (read : Option (String → Option String))
    (p : Nat) : PepActivity :=
  let files := List.insertionSort pathLe (st.pep_files p)
  let metadata : Option PepMetadata :=
    match read with
    | some r => extract_metadata_for_pep r files
    | none => none
  { pep_number := p
    commit_count := st.pep_commits p
    files := files
    title := metadata.bind fun m => m.title
    status := metadata.bind fun m => m.status
    abstract := metadata.bind fun m => m.abstract
    authors := match metadata with | some m => m.authors | none => []
    pep_type := metadata.bind fun m => m.pep_type
    created := metadata.bind fun m => m.created
    commit_messages := st.pep_messages p }

/-- Source `aggregator.aggregate_by_pep`: fold the commits through the two-pass
update, build one activity per recorded PEP number (in key-insertion
order, as the Python dict iteration does), and sort ascending by PEP
number.  The optional repository path plus file system of the source is
modelled as the optional reading capability `read`. -/
def aggregate_by_pep (commits : List CommitRecord)
    (read : Option (String → Option String)) : List PepActivity :=
  let st := commits.foldl processCommit initialState
  List.insertionSort activityLE (st.pep_keys.map (buildActivity st read))

end Pepalyzer

namespace Pepalyzer

/-! ## Lemmas about the filename computation -/

theorem splitOnChar_ne_nil (sep : Char) (cs : List Char) : splitOnChar sep cs ≠ [] := by
  induction cs with
  | nil => simp [splitOnChar]
  | cons c cs ih =>
    simp only [splitOnChar]
    split
    · simp
    · match h : splitOnChar sep cs with
      | [] => exact absurd h ih
      | g :: gs => simp

theorem getLastD_irrel {α : Type _} (l : List α) (a b : α) (h : l ≠ []) :
    l.getLastD a = l.getLastD b := by
  cases l with
  | nil => exact absurd rfl h
  | cons x xs => rw [List.getLastD_cons, List.getLastD_cons]

theorem replaceSep_no_sep (cs : List Char) (h : cs.any isSep = false) :
    replaceSep cs = cs := by
  induction cs with
  | nil => rfl
  | cons c cs ih =>
    rw [List.any_cons, Bool.or_eq_false_iff] at h
    have hc : ¬c = '\\' := by
      intro hcc; subst hcc; simp [isSep] at h
    have hrest := ih h.2
    simp only [replaceSep, List.map_cons, if_neg hc] at hrest ⊢
    rw [hrest]

theorem afterLastSep_no_sep (cs : List Char) (h : cs.any isSep = false) :
    afterLastSep cs = cs := by
  induction cs with
  | nil => rfl
  | cons c cs ih =>
    rw [List.any_cons, Bool.or_eq_false_iff] at h
    simp [afterLastSep, h.1, h.2]

theorem slash_mem_replaceSep (cs : List Char) :
    '/' ∈ replaceSep cs ↔ cs.any isSep = true := by
  induction cs with
  | nil => simp [replaceSep]
  | cons c cs ih =>
    simp only [replaceSep, List.map_cons, List.mem_cons, List.any_cons, Bool.or_eq_true] at ih ⊢
    constructor
    · rintro (h | h)
      · left
        by_cases hc : c = '\\'
        · simp [isSep, hc]
        · rw [if_neg hc] at h
          simp [isSep, ← h]
      · right; exact ih.mp h
    · rintro (h | h)
      · left
        simp only [isSep, Bool.or_eq_true, decide_eq_true_eq] at h
        rcases h with h | h <;> simp [h]
      · right; exact ih.mpr h

theorem splitOnChar_no_sep (cs : List Char) (h : '/' ∉ cs) :
    splitOnChar '/' cs = [cs] := by
  induction cs with
  | nil => rfl
  | cons c cs ih =>
    simp only [List.mem_cons, not_or] at h
    have hc : ¬c = '/' := fun hcc => h.1 hcc.symm
    simp [splitOnChar, hc, ih h.2]

theorem splitOnChar_mem_sep (cs : List Char) (h : '/' ∈ cs) :
    ∃ g gs, splitOnChar '/' cs = g :: gs ∧ gs ≠ [] := by
  induction cs with
  | nil => simp at h
  | cons c cs ih =>
    by_cases hc : c = '/'
    · subst hc
      refine ⟨[], splitOnChar '/' cs, ?_, splitOnChar_ne_nil _ _⟩
      simp [splitOnChar]
    · have hmem : '/' ∈ cs := by
        rcases List.mem_cons.mp h with h | h
        · exact absurd h.symm hc
        · exact h
      obtain ⟨g, gs, hgg, hne⟩ := ih hmem
      refine ⟨c :: g, gs, ?_, hne⟩
      simp [splitOnChar, hc, hgg]

/-- The code's filename computation (backslash replacement, split on `/`,
last component) equals the spec's "suffix after the last separator". -/
theorem filename_eq_afterLastSep (cs : List Char) :
    (splitOnChar '/' (replaceSep cs)).getLastD [] = afterLastSep cs := by
  induction cs with
  | nil => rfl
  | cons c cs ih =>
    by_cases hc : isSep c = true
    · have hrep : replaceSep (c :: cs) = '/' :: replaceSep cs := by
        simp only [isSep, Bool.or_eq_true, decide_eq_true_eq] at hc
        rcases hc with h | h <;> simp [replaceSep, h]
      rw [hrep]
      have hstep : splitOnChar '/' ('/' :: replaceSep cs) = [] :: splitOnChar '/' (replaceSep cs) := by
        simp [splitOnChar]
      rw [hstep, List.getLastD_cons, ih]
      by_cases hany : cs.any isSep = true
      · simp [afterLastSep, hany, hc]
      · have hany' : cs.any isSep = false := by
          simpa using hany
        simp [afterLastSep, hany', hc, afterLastSep_no_sep cs hany']
    · have hcs : c ≠ '\\' := by
        intro h; subst h; simp [isSep] at hc
      have hslash : c ≠ '/' := by
        intro h; subst h; simp [isSep] at hc
      have hrep : replaceSep (c :: cs) = c :: replaceSep cs := by
        simp [replaceSep, hcs]
      rw [hrep]
      by_cases hany : cs.any isSep = true
      · obtain ⟨g, gs, hgg, hne⟩ :=
          splitOnChar_mem_sep (replaceSep cs) ((slash_mem_replaceSep cs).mpr hany)
        have hstep : splitOnChar '/' (c :: replaceSep cs) = (c :: g) :: gs := by
          simp [splitOnChar, hslash, hgg]
        rw [hstep, List.getLastD_cons, getLastD_irrel gs (c :: g) g hne]
        have hlast : (splitOnChar '/' (replaceSep cs)).getLastD [] = gs.getLastD g := by
          rw [hgg, List.getLastD_cons]
        rw [← hlast, ih]
        simp [afterLastSep, hany]
      · have hany' : cs.any isSep = false := by simpa using hany
        have hnorep : '/' ∉ replaceSep cs := by
          intro hmem
          rw [slash_mem_replaceSep] at hmem
          simp [hmem] at hany'
        rw [replaceSep_no_sep cs hany'] at hnorep ⊢
        have hstep : splitOnChar '/' (c :: cs) = [c :: cs] := by
          have hrest := splitOnChar_no_sep cs hnorep
          simp [splitOnChar, hslash, hrest]
        rw [hstep]
        simp [afterLastSep, hany', hc]

theorem afterLastSep_append (a b : List Char) :
    afterLastSep (a ++ '/' :: b) = afterLastSep b := by
  induction a with
  | nil =>
    simp only [List.nil_append, afterLastSep, isSep]
    by_cases hany : b.any isSep = true
    · simp [hany]
    · have hany' : b.any isSep = false := by simpa using hany
      simp [hany', afterLastSep_no_sep b hany']
  | cons c a ih =>
    have hmem : (a ++ '/' :: b).any isSep = true := by
      simp [List.any_append, isSep]
    simp only [List.cons_append, afterLastSep, List.append_eq, hmem, if_true]
    exact ih

theorem leadingDigits_eq_takeWhile (cs : List Char) :
    leadingDigits cs = cs.takeWhile Char.isDigit := by
  induction cs with
  | nil => rfl
  | cons c cs ih =>
    by_cases h : c.isDigit
    · simp [leadingDigits, List.takeWhile, h, ih]
    · simp only [Bool.not_eq_true] at h
      simp [leadingDigits, List.takeWhile, h]

/-- The parse of a filename against the regex agrees with the spec-side
formulation (case-insensitive literal, then one or more digits). -/
theorem parsePepFilename_eq_spec (fn : List Char) :
    parsePepFilename fn =
      (if ciEq (fn.take 4) ['p', 'e', 'p', '-'] ∧ leadingDigits (fn.drop 4) ≠ [] then
        some (digitsToNat (leadingDigits (fn.drop 4)))
      else none) := by
  match fn with
  | [] => simp [parsePepFilename, ciEq]
  | [c₁] => simp [parsePepFilename, ciEq]
  | [c₁, c₂] => simp [parsePepFilename, ciEq]
  | [c₁, c₂, c₃] => simp [parsePepFilename, ciEq]
  | c₁ :: c₂ :: c₃ :: c₄ :: rest =>
    have htake : (c₁ :: c₂ :: c₃ :: c₄ :: rest).take 4 = [c₁, c₂, c₃, c₄] := rfl
    have hdrop : (c₁ :: c₂ :: c₃ :: c₄ :: rest).drop 4 = rest := rfl
    have hp : ('p' : Char).toLower = 'p' := by decide
    have he : ('e' : Char).toLower = 'e' := by decide
    have hd : ('-' : Char).toLower = '-' := by decide
    rw [htake, hdrop, leadingDigits_eq_takeWhile]
    by_cases h₁ : c₁.toLower = 'p' <;>
    by_cases h₂ : c₂.toLower = 'e' <;>
    by_cases h₃ : c₃.toLower = 'p' <;>
    by_cases h₄ : c₄.toLower = '-' <;>
    by_cases h₅ : rest.takeWhile Char.isDigit = [] <;>
      simp [parsePepFilename, ciEq, hp, he, hd, h₁, h₂, h₃, h₄, h₅, List.isEmpty_iff]

/-- The empty path returns no identifier via the explicit emptiness
check; with an empty filename the regex also fails, so the two agree. -/
theorem parsePepFilename_nil : parsePepFilename [] = none := rfl

/-- The code's extractor coincides with the spec-side extractor. -/
theorem extract_pep_number_eq_spec (fp : String) :
    extract_pep_number fp = pepNumberSpec fp := by
  unfold extract_pep_number pepNumberSpec
  rw [filename_eq_afterLastSep, parsePepFilename_eq_spec]
  by_cases h : fp.toList = []
  · rw [if_pos h, h]
    simp [afterLastSep, ciEq, leadingDigits]
  · rw [if_neg h]

/-- C6: for every string, `extract_pep_number` returns the integer value
of the digit run exactly when the filename — the input with any directory
prefix trimmed, `/` and `\` both accepted as separators — starts with the
case-insensitive literal pep- followed by one or more decimal digits
(leading zeros permitted, trailing characters ignored), and returns
`none` in every other case; being a total Lean function it never raises.
The equality with the spec-worded `pepNumberSpec` states this in full,
and the remaining conjuncts check the spec's concrete examples. -/
theorem c6_extract_pep_number_spec :
    (∀ fp : String, extract_pep_number fp = pepNumberSpec fp)
    ∧ extract_pep_number "pep-0001.rst" = some 1
    ∧ extract_pep_number "pep-0000-draft.rst" = some 0
    ∧ extract_pep_number "peps/pep-0001.rst" = some 1
    ∧ extract_pep_number "PEP-0815.md" = some 815
    ∧ extract_pep_number "README.md" = none
    ∧ extract_pep_number "" = none :=
  ⟨extract_pep_number_eq_spec, by decide, by decide, by decide, by decide, by decide, by decide⟩

/-- C7: the extracted identifier is stable under adding a directory
prefix: for every path and every prefix string,
extracting from the path equals extracting from prefix + "/" + path. -/
theorem c7_extract_pep_number_dir_stable (p pre : String) :
    extract_pep_number p = extract_pep_number (pre ++ "/" ++ p) := by
  have hslash : "/".data = ['/'] := rfl
  have htl : (pre ++ "/" ++ p).toList = pre.toList ++ '/' :: p.toList := by
    show (pre ++ "/" ++ p).data = pre.data ++ '/' :: p.data
    rw [String.data_append, String.data_append, hslash, List.append_assoc]
    rfl
  have hne : (pre ++ "/" ++ p).toList ≠ [] := by
    rw [htl]
    intro hcontra
    exact absurd (List.append_eq_nil.mp hcontra).2 (by simp)
  unfold extract_pep_number
  rw [if_neg hne, htl, filename_eq_afterLastSep (pre.toList ++ '/' :: p.toList),
    afterLastSep_append, ← filename_eq_afterLastSep p.toList]
  by_cases h : p.toList = []
  · rw [if_pos h, h]
    rfl
  · rw [if_neg h]

/-! ## Header/Body parser claims -/

/-- C3: on the exact input
"PEP: 1\nTitle: T\nStatus: Draft\n\nThe body.\n", the parser returns
title "T", status "Draft", abstract "The body.", and every other field
absent (no pep_type, no created, empty authors list). -/
theorem c3_metadata_example :
    extract_pep_metadata "PEP: 1\nTitle: T\nStatus: Draft\n\nThe body.\n" =
      { title := some "T", status := some "Draft", abstract := some "The body.",
        authors := [], pep_type := none, created := none } := by
  decide

/-- C10: once at least one abstract line has been collected,
`_is_paragraph_end` stops collection at any line whose stripped text
begins with an ASCII uppercase letter followed by a word character or a
whitespace character (a prefix match); consequently a two-line lead
paragraph whose second line starts with a capitalized word loses its
second line — on the displayed document only the first lead line is
returned as the abstract. -/
theorem c10_paragraph_end_heuristic :
    (∀ (line : List Char) (collected : List (List Char)),
        collected ≠ [] → startsUpperWord (strip line) = true →
        is_paragraph_end line collected = true)
    ∧ extract_pep_metadata
        "Title: X\n\nAbstract\n\nthe first line of the lead\nSecond line continues here\n"
      = { title := some "X", abstract := some "the first line of the lead" } := by
  constructor
  · intro line collected hne hup
    unfold is_paragraph_end
    by_cases hblank : strip line = []
    · rw [if_pos hblank]
    · rw [if_neg hblank, if_pos]
      exact ⟨hne, by simp [headingMatch, hup]⟩
  · decide

/-- Closed instance of the C10 stop rule at a concrete line and
accumulator. -/
theorem c10_paragraph_end_heuristic_witness :
    is_paragraph_end
      ['S', 'e', 'c', 'o', 'n', 'd', ' ', 'l', 'i', 'n', 'e'] [['x']] = true :=
  c10_paragraph_end_heuristic.1
    ['S', 'e', 'c', 'o', 'n', 'd', ' ', 'l', 'i', 'n', 'e'] [['x']]
    (by decide) (by decide)

/-! ## Signal detector claims -/

/-- C1 (refuting evaluation): on the input "Status: Final" — which
contains no deprecation or normative keywords — `detect_signals` does
NOT return the empty list: it emits a status_final signal of value 100.
This contradicts the claim (and the repository's own tests, which assert
that status presence is no longer detected); the status-presence rules
are still active in the code. -/
theorem c1_status_signal_emitted :
    detect_signals "Status: Final" 1 =
      [{ pep_number := 1, signal_type := "status_final",
         description := "Status: Final", signal_value := 100 }] := by
  decide

/-- Filtering the detector output for normative_language signals keeps
exactly the normative chunk, whichever other rules fired. -/
theorem filterNormativeAux (b₁ b₂ b₃ b₄ b₅ : Bool) (n : Nat) :
    ((if b₁ = true then
        [{ pep_number := n, signal_type := "status_accepted",
           description := "Status: Accepted", signal_value := 100 : PepSignal }]
      else []) ++
      (if b₂ = true then
        [{ pep_number := n, signal_type := "status_final",
           description := "Status: Final", signal_value := 100 : PepSignal }]
      else []) ++
      (if b₃ = true then
        [{ pep_number := n, signal_type := "status_withdrawn",
           description := "Status: Withdrawn", signal_value := 100 : PepSignal }]
      else []) ++
      (if b₄ = true then
        [{ pep_number := n, signal_type := "deprecation",
           description := "Contains deprecation or removal language",
           signal_value := 50 : PepSignal }]
      else []) ++
      (if b₅ = true then [normativeSignal n] else [])).filter
        (fun s => s.signal_type == "normative_language") =
      if b₅ = true then [normativeSignal n] else [] := by
  have e₁ : (("status_accepted" : String) == "normative_language") = false := by decide
  have e₂ : (("status_final" : String) == "normative_language") = false := by decide
  have e₃ : (("status_withdrawn" : String) == "normative_language") = false := by decide
  have e₄ : (("deprecation" : String) == "normative_language") = false := by decide
  have e₅ : (("normative_language" : String) == "normative_language") = true := by decide
  cases b₁ <;> cases b₂ <;> cases b₃ <;> cases b₄ <;> cases b₅ <;>
    simp [List.filter_append, List.filter, normativeSignal, e₁, e₂, e₃, e₄, e₅]

/-- C5: the normative-language rule contributes exactly one
normative_language signal of value 50 when at least one of the seven
RFC-2119 keywords occurs case-sensitively as a whole word, and no such
signal otherwise, regardless of how many keywords match; in particular
"Implementations MUST support X." yields exactly that one signal. -/
theorem c5_normative_language_rule :
    (∀ (content : String) (n : Nat),
        (detect_signals content n).filter
            (fun s => s.signal_type == "normative_language") =
          if anyNormativeKeyword content.toList then [normativeSignal n] else [])
    ∧ detect_signals "Implementations MUST support X." 7 = [normativeSignal 7] := by
  refine ⟨fun content n => filterNormativeAux _ _ _ _ _ n, by decide⟩

/-! ## Aggregator state lemmas -/

theorem addPath_mem (l : List String) (y x : String) :
    x ∈ addPath l y ↔ x ∈ l ∨ x = y := by
  unfold addPath
  by_cases h : y ∈ l
  · rw [if_pos h]
    constructor
    · exact Or.inl
    · rintro (hx | rfl)
      · exact hx
      · exact h
  · rw [if_neg h]
    simp

theorem addPath_nodup (l : List String) (y : String) (h : l.Nodup) :
    (addPath l y).Nodup := by
  unfold addPath
  by_cases hy : y ∈ l
  · rwa [if_pos hy]
  · rw [if_neg hy]
    simpa [List.nodup_append] using ⟨h, hy⟩

theorem addPath_ne_nil_of_ne_nil (l : List String) (y : String) (h : l ≠ []) :
    addPath l y ≠ [] := by
  unfold addPath
  by_cases hy : y ∈ l
  · rwa [if_pos hy]
  · rw [if_neg hy]
    simp

theorem foldl_fileStep_commits (fs : List ChangedFile) (st : AggState) :
    (fs.foldl fileStep st).pep_commits = st.pep_commits := by
  induction fs generalizing st with
  | nil => rfl
  | cons f fs ih =>
    rw [List.foldl_cons, ih]
    unfold fileStep
    cases extract_pep_number f.path <;> rfl

theorem foldl_fileStep_messages (fs : List ChangedFile) (st : AggState) :
    (fs.foldl fileStep st).pep_messages = st.pep_messages := by
  induction fs generalizing st with
  | nil => rfl
  | cons f fs ih =>
    rw [List.foldl_cons, ih]
    unfold fileStep
    cases extract_pep_number f.path <;> rfl

theorem foldl_fileStep_keys (fs : List ChangedFile) (st : AggState) :
    (fs.foldl fileStep st).pep_keys = st.pep_keys := by
  induction fs generalizing st with
  | nil => rfl
  | cons f fs ih =>
    rw [List.foldl_cons, ih]
    unfold fileStep
    cases extract_pep_number f.path <;> rfl

theorem fileStep_files_some (s : AggState) (f : ChangedFile) (q : Nat)
    (hf : extract_pep_number f.path = some q) (p : Nat) :
    (fileStep s f).pep_files p =
      if p = q then addPath (s.pep_files q) f.path else s.pep_files p := by
  unfold fileStep
  rw [hf]

theorem fileStep_files_none (s : AggState) (f : ChangedFile)
    (hf : extract_pep_number f.path = none) :
    (fileStep s f).pep_files = s.pep_files := by
  unfold fileStep
  rw [hf]

theorem foldl_fileStep_files_mem (fs : List ChangedFile) (st : AggState)
    (p : Nat) (x : String) :
    x ∈ (fs.foldl fileStep st).pep_files p ↔
      x ∈ st.pep_files p ∨ ∃ f ∈ fs, f.path = x ∧ extract_pep_number f.path = some p := by
  induction fs generalizing st with
  | nil => simp
  | cons f fs ih =>
    rw [List.foldl_cons, ih]
    cases hf : extract_pep_number f.path with
    | none =>
      rw [fileStep_files_none st f hf]
      constructor
      · rintro (hx | ⟨f', hf', hpx, hep⟩)
        · exact Or.inl hx
        · exact Or.inr ⟨f', List.mem_cons_of_mem f hf', hpx, hep⟩
      · rintro (hx | ⟨f', hf', hpx, hep⟩)
        · exact Or.inl hx
        · rcases List.mem_cons.mp hf' with rfl | hmem
          · rw [hf] at hep
            exact absurd hep (by simp)
          · exact Or.inr ⟨f', hmem, hpx, hep⟩
    | some q =>
      rw [fileStep_files_some st f q hf p]
      by_cases hpq : p = q
      · subst hpq
        rw [if_pos rfl, addPath_mem]
        constructor
        · rintro ((hx | rfl) | ⟨f', hf', hpx, hep⟩)
          · exact Or.inl hx
          · exact Or.inr ⟨f, List.mem_cons_self f fs, rfl, hf⟩
          · exact Or.inr ⟨f', List.mem_cons_of_mem f hf', hpx, hep⟩
        · rintro (hx | ⟨f', hf', hpx, hep⟩)
          · exact Or.inl (Or.inl hx)
          · rcases List.mem_cons.mp hf' with rfl | hmem
            · exact Or.inl (Or.inr hpx.symm)
            · exact Or.inr ⟨f', hmem, hpx, hep⟩
      · rw [if_neg hpq]
        constructor
        · rintro (hx | ⟨f', hf', hpx, hep⟩)
          · exact Or.inl hx
          · exact Or.inr ⟨f', List.mem_cons_of_mem f hf', hpx, hep⟩
        · rintro (hx | ⟨f', hf', hpx, hep⟩)
          · exact Or.inl hx
          · rcases List.mem_cons.mp hf' with rfl | hmem
            · rw [hf] at hep
              exact absurd (Option.some.inj hep) fun hq => hpq hq.symm
            · exact Or.inr ⟨f', hmem, hpx, hep⟩

theorem foldl_fileStep_files_nodup (fs : List ChangedFile) (st : AggState)
    (h : ∀ p, (st.pep_files p).Nodup) :
    ∀ p, ((fs.foldl fileStep st).pep_files p).Nodup := by
  induction fs generalizing st with
  | nil => exact h
  | cons f fs ih =>
    rw [List.foldl_cons]
    refine ih _ fun p => ?_
    cases hf : extract_pep_number f.path with
    | none =>
      rw [fileStep_files_none st f hf]
      exact h p
    | some q =>
      rw [fileStep_files_some st f q hf p]
      by_cases hpq : p = q
      · rw [if_pos hpq]
        exact addPath_nodup _ _ (h q)
      · rw [if_neg hpq]
        exact h p

theorem touchStep_commits (msg : String) (s : AggState) (p n : Nat) :
    (touchStep msg s p).pep_commits n =
      if n = p then s.pep_commits n + 1 else s.pep_commits n := rfl

theorem touchStep_messages (msg : String) (s : AggState) (p n : Nat) :
    (touchStep msg s p).pep_messages n =
      if n = p then s.pep_messages n ++ [msg] else s.pep_messages n := rfl

theorem touchStep_files (msg : String) (s : AggState) (p : Nat) :
    (touchStep msg s p).pep_files = s.pep_files := rfl

theorem touchStep_keys_mem (msg : String) (s : AggState) (p r : Nat) :
    r ∈ (touchStep msg s p).pep_keys ↔ r ∈ s.pep_keys ∨ r = p := by
  show r ∈ (if p ∈ s.pep_keys then s.pep_keys else s.pep_keys ++ [p]) ↔ _
  by_cases h : p ∈ s.pep_keys
  · rw [if_pos h]
    constructor
    · exact Or.inl
    · rintro (hr | rfl)
      · exact hr
      · exact h
  · rw [if_neg h]
    simp

theorem touchStep_keys_nodup (msg : String) (s : AggState) (p : Nat)
    (h : s.pep_keys.Nodup) : (touchStep msg s p).pep_keys.Nodup := by
  show (if p ∈ s.pep_keys then s.pep_keys else s.pep_keys ++ [p]).Nodup
  by_cases hp : p ∈ s.pep_keys
  · rwa [if_pos hp]
  · rw [if_neg hp]
    simpa [List.nodup_append] using ⟨h, hp⟩

theorem foldl_touchStep_commits (msg : String) (l : List Nat) (st : AggState) (p : Nat) :
    (l.foldl (touchStep msg) st).pep_commits p = st.pep_commits p + l.count p := by
  induction l generalizing st with
  | nil => simp
  | cons q l ih =>
    rw [List.foldl_cons, ih, touchStep_commits]
    by_cases h : p = q
    · subst h
      simp [List.count_cons]
      omega
    · have h' : ¬q = p := fun hc => h hc.symm
      simp [List.count_cons, h, h']

theorem foldl_touchStep_messages (msg : String) (l : List Nat) (st : AggState) (p : Nat) :
    (l.foldl (touchStep msg) st).pep_messages p =
      st.pep_messages p ++ List.replicate (l.count p) msg := by
  induction l generalizing st with
  | nil => simp
  | cons q l ih =>
    rw [List.foldl_cons, ih, touchStep_messages]
    by_cases h : p = q
    · subst h
      simp [List.count_cons, List.replicate_succ, List.append_assoc]
    · have h' : ¬q = p := fun hc => h hc.symm
      simp [List.count_cons, h, h']

theorem foldl_touchStep_files (msg : String) (l : List Nat) (st : AggState) :
    (l.foldl (touchStep msg) st).pep_files = st.pep_files := by
  induction l generalizing st with
  | nil => rfl
  | cons q l ih =>
    rw [List.foldl_cons, ih, touchStep_files]

theorem foldl_touchStep_keys_mem (msg : String) (l : List Nat) (st : AggState) (r : Nat) :
    r ∈ (l.foldl (touchStep msg) st).pep_keys ↔ r ∈ st.pep_keys ∨ r ∈ l := by
  induction l generalizing st with
  | nil => simp
  | cons q l ih =>
    rw [List.foldl_cons, ih, touchStep_keys_mem]
    constructor
    · rintro ((hr | rfl) | hl)
      · exact Or.inl hr
      · exact Or.inr (List.mem_cons_self _ _)
      · exact Or.inr (List.mem_cons_of_mem _ hl)
    · rintro (hr | hql)
      · exact Or.inl (Or.inl hr)
      · rcases List.mem_cons.mp hql with rfl | hl
        · exact Or.inl (Or.inr rfl)
        · exact Or.inr hl

theorem foldl_touchStep_keys_nodup (msg : String) (l : List Nat) (st : AggState)
    (h : st.pep_keys.Nodup) : (l.foldl (touchStep msg) st).pep_keys.Nodup := by
  induction l generalizing st with
  | nil => exact h
  | cons q l ih =>
    rw [List.foldl_cons]
    exact ih _ (touchStep_keys_nodup msg st q h)

theorem touchedPeps_nodup (c : CommitRecord) : (touchedPeps c).Nodup :=
  List.nodup_dedup _

theorem mem_touchedPeps (p : Nat) (c : CommitRecord) :
    p ∈ touchedPeps c ↔ commitTouches p c = true := by
  unfold touchedPeps commitTouches
  rw [List.mem_dedup, List.mem_filterMap, List.any_eq_true]
  constructor
  · rintro ⟨f, hf, hep⟩
    exact ⟨f, hf, by simp [hep]⟩
  · rintro ⟨f, hf, hep⟩
    exact ⟨f, hf, by simpa using hep⟩

theorem touchedPeps_count (p : Nat) (c : CommitRecord) :
    (touchedPeps c).count p = if commitTouches p c = true then 1 else 0 := by
  by_cases h : commitTouches p c = true
  · rw [if_pos h]
    exact List.count_eq_one_of_mem (touchedPeps_nodup c) ((mem_touchedPeps p c).mpr h)
  · rw [if_neg h]
    rw [List.count_eq_zero]
    intro hmem
    exact h ((mem_touchedPeps p c).mp hmem)

theorem processCommit_commits (st : AggState) (c : CommitRecord) (p : Nat) :
    (processCommit st c).pep_commits p =
      st.pep_commits p + (if commitTouches p c = true then 1 else 0) := by
  unfold processCommit
  rw [foldl_touchStep_commits, touchedPeps_count]
  have h := foldl_fileStep_commits c.files st
  rw [h]

theorem processCommit_messages (st : AggState) (c : CommitRecord) (p : Nat) :
    (processCommit st c).pep_messages p =
      st.pep_messages p ++ (if commitTouches p c = true then [c.message] else []) := by
  unfold processCommit
  rw [foldl_touchStep_messages, touchedPeps_count]
  have h := foldl_fileStep_messages c.files st
  rw [h]
  by_cases hb : commitTouches p c = true
  · rw [if_pos hb, if_pos hb]
    rfl
  · rw [if_neg hb, if_neg hb]
    rfl

theorem processCommit_keys_mem (st : AggState) (c : CommitRecord) (r : Nat) :
    r ∈ (processCommit st c).pep_keys ↔
      r ∈ st.pep_keys ∨ commitTouches r c = true := by
  unfold processCommit
  rw [foldl_touchStep_keys_mem, foldl_fileStep_keys, mem_touchedPeps]

theorem processCommit_keys_nodup (st : AggState) (c : CommitRecord)
    (h : st.pep_keys.Nodup) : (processCommit st c).pep_keys.Nodup := by
  unfold processCommit
  refine foldl_touchStep_keys_nodup _ _ _ ?_
  rw [foldl_fileStep_keys]
  exact h

theorem processCommit_files_mem (st : AggState) (c : CommitRecord) (p : Nat) (x : String) :
    x ∈ (processCommit st c).pep_files p ↔
      x ∈ st.pep_files p ∨
        ∃ f ∈ c.files, f.path = x ∧ extract_pep_number f.path = some p := by
  unfold processCommit
  rw [foldl_touchStep_files, foldl_fileStep_files_mem]

theorem processCommit_files_nodup (st : AggState) (c : CommitRecord)
    (h : ∀ p, (st.pep_files p).Nodup) : ∀ p, ((processCommit st c).pep_files p).Nodup := by
  unfold processCommit
  rw [foldl_touchStep_files]
  exact foldl_fileStep_files_nodup _ _ h

theorem foldl_processCommit_commits (cs : List CommitRecord) (st : AggState) (p : Nat) :
    (cs.foldl processCommit st).pep_commits p =
      st.pep_commits p + cs.countP (commitTouches p) := by
  induction cs generalizing st with
  | nil => simp
  | cons c cs ih =>
    rw [List.foldl_cons, ih, processCommit_commits, List.countP_cons]
    by_cases h : commitTouches p c = true
    · simp [h]
      omega
    · simp [h]

theorem foldl_processCommit_messages (cs : List CommitRecord) (st : AggState) (p : Nat) :
    (cs.foldl processCommit st).pep_messages p =
      st.pep_messages p ++ (cs.filter (commitTouches p)).map (fun c => c.message) := by
  induction cs generalizing st with
  | nil => simp
  | cons c cs ih =>
    rw [List.foldl_cons, ih, processCommit_messages, List.filter_cons]
    by_cases h : commitTouches p c = true
    · rw [if_pos h, if_pos h, List.map_cons, List.append_assoc]
      rfl
    · rw [if_neg h, if_neg h, List.append_nil]

theorem foldl_processCommit_keys_mem (cs : List CommitRecord) (st : AggState) (r : Nat) :
    r ∈ (cs.foldl processCommit st).pep_keys ↔
      r ∈ st.pep_keys ∨ ∃ c ∈ cs, commitTouches r c = true := by
  induction cs generalizing st with
  | nil => simp
  | cons c cs ih =>
    rw [List.foldl_cons, ih, processCommit_keys_mem]
    constructor
    · rintro ((hr | hc) | ⟨c', hc', ht⟩)
      · exact Or.inl hr
      · exact Or.inr ⟨c, List.mem_cons_self _ _, hc⟩
      · exact Or.inr ⟨c', List.mem_cons_of_mem _ hc', ht⟩
    · rintro (hr | ⟨c', hc', ht⟩)
      · exact Or.inl (Or.inl hr)
      · rcases List.mem_cons.mp hc' with rfl | hmem
        · exact Or.inl (Or.inr ht)
        · exact Or.inr ⟨c', hmem, ht⟩

theorem foldl_processCommit_keys_nodup (cs : List CommitRecord) (st : AggState)
    (h : st.pep_keys.Nodup) : (cs.foldl processCommit st).pep_keys.Nodup := by
  induction cs generalizing st with
  | nil => exact h
  | cons c cs ih =>
    rw [List.foldl_cons]
    exact ih _ (processCommit_keys_nodup st c h)

theorem foldl_processCommit_files_mem (cs : List CommitRecord) (st : AggState)
    (p : Nat) (x : String) :
    x ∈ (cs.foldl processCommit st).pep_files p ↔
      x ∈ st.pep_files p ∨
        ∃ c ∈ cs, ∃ f ∈ c.files, f.path = x ∧ extract_pep_number f.path = some p := by
  induction cs generalizing st with
  | nil => simp
  | cons c cs ih =>
    rw [List.foldl_cons, ih, processCommit_files_mem]
    constructor
    · rintro ((hx | ⟨f, hf, hpx, hep⟩) | ⟨c', hc', hrest⟩)
      · exact Or.inl hx
      · exact Or.inr ⟨c, List.mem_cons_self _ _, f, hf, hpx, hep⟩
      · exact Or.inr ⟨c', List.mem_cons_of_mem _ hc', hrest⟩
    · rintro (hx | ⟨c', hc', hrest⟩)
      · exact Or.inl (Or.inl hx)
      · rcases List.mem_cons.mp hc' with rfl | hmem
        · exact Or.inl (Or.inr hrest)
        · exact Or.inr ⟨c', hmem, hrest⟩

theorem foldl_processCommit_files_nodup (cs : List CommitRecord) (st : AggState)
    (h : ∀ p, (st.pep_files p).Nodup) :
    ∀ p, ((cs.foldl processCommit st).pep_files p).Nodup := by
  induction cs generalizing st with
  | nil => exact h
  | cons c cs ih =>
    rw [List.foldl_cons]
    exact ih _ (processCommit_files_nodup st c h)

/-! ## Ordering lemmas for the path comparator -/

theorem charListLe_total : ∀ a b : List Char, charListLe a b = true ∨ charListLe b a = true
  | [], _ => Or.inl rfl
  | _ :: _, [] => Or.inr rfl
  | a :: as, b :: bs => by
    by_cases hab : a = b
    · subst hab
      simp only [charListLe, if_pos rfl]
      exact charListLe_total as bs
    · have hba : ¬b = a := fun h => hab h.symm
      simp only [charListLe, if_neg hab, if_neg hba, decide_eq_true_eq]
      exact lt_or_gt_of_ne hab

theorem charListLe_trans :
    ∀ a b c : List Char, charListLe a b = true → charListLe b c = true →
      charListLe a c = true
  | [], _, _, _, _ => rfl
  | _ :: _, [], _, h₁, _ => by simp [charListLe] at h₁
  | _ :: _, _ :: _, [], _, h₂ => by simp [charListLe] at h₂
  | a :: as, b :: bs, c :: cs, h₁, h₂ => by
    simp only [charListLe] at h₁ h₂ ⊢
    by_cases hab : a = b <;> by_cases hbc : b = c
    · subst hab; subst hbc
      rw [if_pos rfl] at h₁ h₂ ⊢
      exact charListLe_trans as bs cs h₁ h₂
    · subst hab
      rw [if_pos rfl] at h₁
      rw [if_neg hbc] at h₂ ⊢
      exact h₂
    · subst hbc
      rw [if_neg hab] at h₁ ⊢
      exact h₁
    · rw [if_neg hab] at h₁
      rw [if_neg hbc] at h₂
      rw [decide_eq_true_eq] at h₁ h₂
      have hac : a < c := lt_trans h₁ h₂
      rw [if_neg (ne_of_lt hac), decide_eq_true_eq]
      exact hac

theorem charListLt_of_le_of_ne :
    ∀ a b : List Char, charListLe a b = true → a ≠ b → charListLt a b = true
  | [], [], _, hne => absurd rfl hne
  | [], _ :: _, _, _ => rfl
  | _ :: _, [], h, _ => by simp [charListLe] at h
  | a :: as, b :: bs, h, hne => by
    simp only [charListLe] at h
    simp only [charListLt]
    by_cases hab : a = b
    · subst hab
      rw [if_pos rfl] at h ⊢
      have hne' : as ≠ bs := fun hc => hne (by rw [hc])
      exact charListLt_of_le_of_ne as bs h hne'
    · rw [if_neg hab] at h ⊢
      exact h

instance : IsTotal String pathLe :=
  ⟨fun a b => charListLe_total a.toList b.toList⟩

instance : IsTrans String pathLe :=
  ⟨fun a b c => charListLe_trans a.toList b.toList c.toList⟩

theorem pathLt_of_le_of_ne (a b : String) (hle : pathLe a b) (hne : a ≠ b) :
    pathLt a b :=
  charListLt_of_le_of_ne a.toList b.toList hle
    fun h => hne (String.toList_inj.mp h)

theorem sorted_pathLt_of_le {l : List String} (h₁ : l.Sorted pathLe)
    (h₂ : l.Nodup) : l.Sorted pathLt :=
  h₁.imp₂ (fun a b hle hne => pathLt_of_le_of_ne a b hle hne) h₂

/-! ## Aggregate output shape -/

theorem buildActivity_pep_number (st : AggState) (read : Option (String → Option String))
    (p : Nat) : (buildActivity st read p).pep_number = p := rfl

theorem buildActivity_commit_count (st : AggState) (read : Option (String → Option String))
    (p : Nat) : (buildActivity st read p).commit_count = st.pep_commits p := rfl

theorem buildActivity_files (st : AggState) (read : Option (String → Option String))
    (p : Nat) :
    (buildActivity st read p).files = List.insertionSort pathLe (st.pep_files p) := rfl

theorem buildActivity_commit_messages (st : AggState)
    (read : Option (String → Option String)) (p : Nat) :
    (buildActivity st read p).commit_messages = st.pep_messages p := rfl

theorem mem_aggregate_iff (commits : List CommitRecord)
    (read : Option (String → Option String)) (a : PepActivity) :
    a ∈ aggregate_by_pep commits read ↔
      ∃ p ∈ (commits.foldl processCommit initialState).pep_keys,
        buildActivity (commits.foldl processCommit initialState) read p = a := by
  unfold aggregate_by_pep
  rw [List.mem_insertionSort, List.mem_map]

/-! ## Aggregator claims -/

/-- C2: each commit increments an identifier's count at most once even
when several of its files map to that identifier: the output
commit_count equals the number of commits in the input that touch the
identifier (each counted once).  The second conjunct checks the spec's
deduplication example: two commits both touching pep-0001.rst give one
activity with one file, commit_count 2 and two commit messages. -/
theorem c2_commit_count_dedup :
    (∀ (commits : List CommitRecord) (read : Option (String → Option String))
        (a : PepActivity), a ∈ aggregate_by_pep commits read →
        a.commit_count = commits.countP (commitTouches a.pep_number))
    ∧ aggregate_by_pep
        [⟨"c1", 1, "Update PEP 1", [⟨"pep-0001.rst", "M"⟩]⟩,
         ⟨"c2", 2, "Fix typo", [⟨"pep-0001.rst", "M"⟩]⟩] none =
      [{ pep_number := 1, commit_count := 2, files := ["pep-0001.rst"],
         commit_messages := ["Update PEP 1", "Fix typo"] }] := by
  constructor
  · intro commits read a ha
    rw [mem_aggregate_iff] at ha
    obtain ⟨p, hp, rfl⟩ := ha
    rw [buildActivity_commit_count, buildActivity_pep_number,
      foldl_processCommit_commits]
    show 0 + _ = _
    rw [Nat.zero_add]
  · decide

/-- Closed instance of C2's counting law on a one-commit input. -/
theorem c2_commit_count_dedup_witness :
    ({ pep_number := 1, commit_count := 1, files := ["pep-0001.rst"],
       commit_messages := ["m1"] } : PepActivity).commit_count =
      List.countP (commitTouches
          ({ pep_number := 1, commit_count := 1, files := ["pep-0001.rst"],
             commit_messages := ["m1"] } : PepActivity).pep_number)
        [⟨"h", 5, "m1", [⟨"pep-0001.rst", "M"⟩]⟩] :=
  c2_commit_count_dedup.1 [⟨"h", 5, "m1", [⟨"pep-0001.rst", "M"⟩]⟩] none
    { pep_number := 1, commit_count := 1, files := ["pep-0001.rst"],
      commit_messages := ["m1"] } (by decide)

/-- C8: the activities are returned in ascending order of pep_number,
and the empty commit sequence yields the empty output without error. -/
theorem c8_sorted_ascending_and_empty :
    (∀ (commits : List CommitRecord) (read : Option (String → Option String)),
        List.Sorted (· ≤ ·) ((aggregate_by_pep commits read).map fun a => a.pep_number))
    ∧ ∀ read : Option (String → Option String), aggregate_by_pep [] read = [] := by
  constructor
  · intro commits read
    unfold aggregate_by_pep
    rw [List.Sorted, List.pairwise_map]
    exact List.sorted_insertionSort activityLE _
  · intro read
    rfl

/-- C9: every activity the aggregator produces satisfies the structural
invariant: commit_count is at least one, commit_messages has exactly
commit_count entries, and files is a non-empty, strictly ascending
(code-point lexicographic, hence duplicate-free) list of paths, each of
which maps to the activity's pep_number under extract_pep_number. -/
theorem c9_activity_invariant (commits : List CommitRecord)
    (read : Option (String → Option String)) (a : PepActivity)
    (ha : a ∈ aggregate_by_pep commits read) :
    1 ≤ a.commit_count ∧ a.commit_messages.length = a.commit_count ∧
      a.files ≠ [] ∧ List.Sorted pathLt a.files ∧
      ∀ f ∈ a.files, extract_pep_number f = some a.pep_number := by
  rw [mem_aggregate_iff] at ha
  obtain ⟨p, hp, rfl⟩ := ha
  have htouch : ∃ c ∈ commits, commitTouches p c = true := by
    have hmem := (foldl_processCommit_keys_mem commits initialState p).mp hp
    rcases hmem with hinit | h
    · exact absurd hinit (by simp [initialState])
    · exact h
  refine ⟨?_, ?_, ?_, ?_, ?_⟩
  · rw [buildActivity_commit_count, foldl_processCommit_commits]
    have hpos : 0 < commits.countP (commitTouches p) := List.countP_pos_iff.mpr htouch
    show 1 ≤ 0 + _
    omega
  · rw [buildActivity_commit_messages, buildActivity_commit_count,
      foldl_processCommit_messages, foldl_processCommit_commits]
    show (([] : List String) ++ _).length = 0 + _
    rw [List.nil_append, Nat.zero_add, List.length_map, ← List.countP_eq_length_filter]
  · rw [buildActivity_files]
    obtain ⟨c, hc, ht⟩ := htouch
    have hf : ∃ f ∈ c.files, extract_pep_number f.path = some p := by
      unfold commitTouches at ht
      rw [List.any_eq_true] at ht
      obtain ⟨f, hfmem, hb⟩ := ht
      exact ⟨f, hfmem, by simpa using hb⟩
    obtain ⟨f, hfmem, hep⟩ := hf
    have hmem : f.path ∈ (commits.foldl processCommit initialState).pep_files p := by
      rw [foldl_processCommit_files_mem]
      exact Or.inr ⟨c, hc, f, hfmem, rfl, hep⟩
    have hmem' : f.path ∈ List.insertionSort pathLe
        ((commits.foldl processCommit initialState).pep_files p) := by
      rw [List.mem_insertionSort]
      exact hmem
    exact List.ne_nil_of_mem hmem'
  · rw [buildActivity_files]
    have hnodup : ((commits.foldl processCommit initialState).pep_files p).Nodup :=
      foldl_processCommit_files_nodup commits initialState (fun _ => List.nodup_nil) p
    have hsorted := List.sorted_insertionSort pathLe
      ((commits.foldl processCommit initialState).pep_files p)
    have hnodup' : (List.insertionSort pathLe
        ((commits.foldl processCommit initialState).pep_files p)).Nodup :=
      ((List.perm_insertionSort pathLe _).nodup_iff).mpr hnodup
    exact sorted_pathLt_of_le hsorted hnodup'
  · rw [buildActivity_files, buildActivity_pep_number]
    intro x hx
    rw [List.mem_insertionSort, foldl_processCommit_files_mem] at hx
    rcases hx with hx | ⟨c, _, f, _, hpx, hep⟩
    · exact absurd hx (by simp [initialState])
    · rw [← hpx]
      exact hep

/-- Closed instance of the C9 invariant on a one-commit input. -/
theorem c9_activity_invariant_witness :
    1 ≤ ({ pep_number := 1, commit_count := 1, files := ["pep-0001.rst"],
           commit_messages := ["m1"] } : PepActivity).commit_count ∧
      ({ pep_number := 1, commit_count := 1, files := ["pep-0001.rst"],
         commit_messages := ["m1"] } : PepActivity).commit_messages.length =
        ({ pep_number := 1, commit_count := 1, files := ["pep-0001.rst"],
           commit_messages := ["m1"] } : PepActivity).commit_count ∧
      ({ pep_number := 1, commit_count := 1, files := ["pep-0001.rst"],
         commit_messages := ["m1"] } : PepActivity).files ≠ [] ∧
      List.Sorted pathLt
        ({ pep_number := 1, commit_count := 1, files := ["pep-0001.rst"],
           commit_messages := ["m1"] } : PepActivity).files ∧
      ∀ f ∈ ({ pep_number := 1, commit_count := 1, files := ["pep-0001.rst"],
               commit_messages := ["m1"] } : PepActivity).files,
        extract_pep_number f =
          some ({ pep_number := 1, commit_count := 1, files := ["pep-0001.rst"],
                  commit_messages := ["m1"] } : PepActivity).pep_number :=
  c9_activity_invariant [⟨"h", 5, "m1", [⟨"pep-0001.rst", "M"⟩]⟩] none
    { pep_number := 1, commit_count := 1, files := ["pep-0001.rst"],
      commit_messages := ["m1"] } (by decide)

/-! ## Metadata-source selection claims -/

theorem tryFilesWith_none (read : String → Option String) (ext : String)
    (files : List String) (h : ∀ f ∈ files, read f = none ∨ read f = some "") :
    tryFilesWith read ext files = none := by
  induction files with
  | nil => rfl
  | cons f fs ih =>
    have hrest : ∀ g ∈ fs, read g = none ∨ read g = some "" :=
      fun g hg => h g (List.mem_cons_of_mem f hg)
    unfold tryFilesWith
    by_cases he : pyEndsWith f ext = true
    · rw [if_pos he]
      rcases h f (List.mem_cons_self f fs) with hr | hr
      · rw [hr]
        exact ih hrest
      · rw [hr]
        show (if ("" : String) = "" then tryFilesWith read ext fs
          else some (extract_pep_metadata "")) = none
        rw [if_pos rfl]
        exact ih hrest
    · rw [if_neg he]
      exact ih hrest

/-- C4: with a metadata source present, exactly one file is read per
identifier — candidates with the .rst suffix are tried before .md and
.txt in list order and the first one yielding non-empty readable content
is parsed; if every read yields nothing (None or empty), the result is
`none` (all metadata fields absent) and no error occurs.  The third
conjunct is the spec's priority example: with pep-9.md and pep-9.rst
both readable, the .rst content is the one parsed, and the final
conjunct shows the two parses are observably different. -/
theorem c4_metadata_priority :
    (∀ (read : String → Option String) (files : List String),
        (∀ f ∈ files, read f = none ∨ read f = some "") →
        extract_metadata_for_pep read files = none)
    ∧ (∀ (read : String → Option String) (f c : String) (rest : List String),
        pyEndsWith f ".rst" = true → read f = some c → c ≠ "" →
        extract_metadata_for_pep read (f :: rest) = some (extract_pep_metadata c))
    ∧ extract_metadata_for_pep
        (fun f => if f = "pep-9.rst" then some "PEP: 9\nTitle: From RST\n\nBody.\n"
          else if f = "pep-9.md" then some "PEP: 9\nTitle: From MD\n\nBody.\n" else none)
        ["pep-9.md", "pep-9.rst"]
        = some (extract_pep_metadata "PEP: 9\nTitle: From RST\n\nBody.\n")
    ∧ extract_pep_metadata "PEP: 9\nTitle: From RST\n\nBody.\n"
        ≠ extract_pep_metadata "PEP: 9\nTitle: From MD\n\nBody.\n" := by
  refine ⟨?_, ?_, by decide, by decide⟩
  · intro read files h
    unfold extract_metadata_for_pep
    rw [tryFilesWith_none read ".rst" files h, tryFilesWith_none read ".md" files h,
      tryFilesWith_none read ".txt" files h]
  · intro read f c rest hext hread hne
    have hfirst : tryFilesWith read ".rst" (f :: rest) = some (extract_pep_metadata c) := by
      unfold tryFilesWith
      rw [if_pos hext, hread]
      show (if c = "" then tryFilesWith read ".rst" rest
        else some (extract_pep_metadata c)) = some (extract_pep_metadata c)
      rw [if_neg hne]
    unfold extract_metadata_for_pep
    rw [hfirst]

/-- Closed instance of C4's no-readable-content case. -/
theorem c4_metadata_priority_witness :
    extract_metadata_for_pep (fun _ => none) ["pep-9.rst"] = none :=
  c4_metadata_priority.1 (fun _ => none) ["pep-9.rst"] fun _ _ => Or.inl rfl
